import Mathlib

/-!
Verification of the vertical label placement algorithm (src/src/lib.rs).

The whole crate is a pure, single-pass, stack-based clustering algorithm over
machine integers.  The embedding below translates it over `Int`: the Rust `i32`
operator `/` truncates toward zero, which is `Int.tdiv`; Rust `min`/`max` are
`min`/`max` on `Int`.  The Rust `Vec<Cluster>` stack pushes and pops at its
end; the embedding keeps the most recently pushed cluster at the HEAD of a
`List Cluster`, so the Rust vector read bottom-to-top is the reverse of the
embedded list.
-/

/-- Cluster (lib.rs 130-140): a set of neighbouring labels whose permitted
positions are separated by exactly the minimum separation.  The Rust field
`end` is a Lean keyword and is embedded as `end_`. -/
@[ext] structure Cluster where
  start : Int
  end_ : Int
  min_offset : Int
  max_offset : Int
  deriving DecidableEq

namespace Cluster

/-- Cluster::new (lib.rs 144-151): a cluster containing a single position. -/
def new (position : Int) : Cluster :=
  ⟨position, position, 0, 0⟩

/-- Cluster::shift (lib.rs 167-172): moves the cluster by an offset. -/
def shift (c : Cluster) (offset : Int) : Cluster :=
  ⟨c.start + offset, c.end_ + offset, c.min_offset + offset, c.max_offset + offset⟩

/-- Cluster::balance (lib.rs 177-185): shifts the cluster to minimise the sum
of `min_offset` and `max_offset`.  Rust integer division truncates toward
zero, hence `Int.tdiv`. -/
def balance (c : Cluster) : Cluster :=
  let imbalance := Int.tdiv (c.min_offset + c.max_offset) 2
  if imbalance ≠ 0 then c.shift (-imbalance) else c

/-- Cluster::merge (lib.rs 154-164): merges two neighbouring clusters, the
first shifted up against the second, then balances the result. -/
def merge (first second : Cluster) (separation : Int) : Cluster :=
  let first' := first.shift (second.start - first.end_ - separation)
  Cluster.balance
    ⟨first'.start, second.end_,
      min first'.min_offset second.min_offset,
      max first'.max_offset second.max_offset⟩

/-- Cluster::limit (lib.rs 188-198): shifts the cluster to respect the limits;
the second step runs unconditionally after the first, so the upper limit wins. -/
def limit (c : Cluster) (min max : Int) : Cluster :=
  let c1 := if c.start < min then c.shift (min - c.start) else c
  if c1.end_ > max then c1.shift (max - c1.end_) else c1

end Cluster

/-- ClusterList::pop_if_not_separate (lib.rs 226-234) applied to a stack whose
head is the most recently pushed cluster: returns the popped cluster and the
rest of the stack when the top is not sufficiently separated from `cluster`. -/
def pop_if_not_separate (separation : Int) (stack : List Cluster) (cluster : Cluster) :
    Option (Cluster × List Cluster) :=
  match stack with
  | [] => none
  | previous :: rest =>
    if previous.end_ + separation > cluster.start then some (previous, rest) else none

/-- The while-let merge loop shared by place (lib.rs 58-61) and
place_with_limits (lib.rs 118-121).  Each iteration pops the top of the stack
while it is not separate from the current cluster and replaces the current
cluster by the merge; `f` is what each placement function applies to a newly
formed cluster: `id` for place and a `Cluster.limit` for place_with_limits.
Returns the remaining stack and the final current cluster. -/
def mergeLoop (separation : Int) (f : Cluster → Cluster) :
    List Cluster → Cluster → List Cluster × Cluster
  | [], cluster => ([], cluster)
  | previous :: rest, cluster =>
    if previous.end_ + separation > cluster.start then
      mergeLoop separation f rest (f (Cluster.merge previous cluster separation))
    else
      (previous :: rest, cluster)

/-- The for-loop of place (lib.rs 55-63) and place_with_limits (lib.rs
115-123): for each input position build a singleton cluster, post-process it
with `f`, run the merge loop against the stack, and push the result. -/
def sweep (separation : Int) (f : Cluster → Cluster) :
    List Cluster → List Int → List Cluster
  | stack, [] => stack
  | stack, position :: rest =>
    let s := mergeLoop separation f stack (f (Cluster.new position))
    sweep separation f (s.2 :: s.1) rest

/-- The inner while loop of ClusterList::positions (lib.rs 246-250): emits
`position, position + separation, ...` while `position ≤ end_`.  The source
loop terminates only for positive separation; for `separation ≤ 0` (out of
contract, spec section 7) the embedding returns `[]` where the source loop
would never return. -/
def emitFrom (separation end_ : Int) (position : Int) : List Int :=
  if h : position ≤ end_ ∧ 0 < separation then
    position :: emitFrom separation end_ (position + separation)
  else
    []
termination_by (end_ + 1 - position).toNat
decreasing_by
  omega

/-- ClusterList::positions (lib.rs 242-254): flattens the stack, bottom
cluster first.  The embedded stack keeps the most recent cluster at its head,
so the bottom-to-top order of the Rust vector is the reverse of the list. -/
def ClusterList.positions (separation : Int) (stack : List Cluster) : List Int :=
  stack.reverse.flatMap fun c => emitFrom separation c.end_ c.start

/-- The cluster stack built by place (lib.rs 52-66) before flattening. -/
def placeStack (positions : List Int) (separation : Int) : List Cluster :=
  sweep separation id [] positions

/-- place (lib.rs 52-66). -/
def place (positions : List Int) (separation : Int) : List Int :=
  ClusterList.positions separation (placeStack positions separation)

/-- The cluster stack built by place_with_limits (lib.rs 112-126) before
flattening. -/
def limitStack (positions : List Int) (separation min max : Int) : List Cluster :=
  sweep separation (fun c => c.limit min max) [] positions

/-- place_with_limits (lib.rs 112-126). -/
def place_with_limits (positions : List Int) (separation min max : Int) : List Int :=
  ClusterList.positions separation (limitStack positions separation min max)

/-- Unfolding equation for `emitFrom` with a propositional `if`. -/
theorem emitFrom_step (separation end_ position : Int) :
    emitFrom separation end_ position =
      if position ≤ end_ ∧ 0 < separation then
        position :: emitFrom separation end_ (position + separation)
      else [] := by
  rw [emitFrom.eq_def]
  by_cases h : position ≤ end_ ∧ 0 < separation <;> simp [h]

/-! Basic algebra of the cluster operations. -/

namespace Cluster

@[simp] theorem shift_start (c : Cluster) (d : Int) : (c.shift d).start = c.start + d := rfl

@[simp] theorem shift_end (c : Cluster) (d : Int) : (c.shift d).end_ = c.end_ + d := rfl

@[simp] theorem shift_min_offset (c : Cluster) (d : Int) :
    (c.shift d).min_offset = c.min_offset + d := rfl

@[simp] theorem shift_max_offset (c : Cluster) (d : Int) :
    (c.shift d).max_offset = c.max_offset + d := rfl

@[simp] theorem new_start (p : Int) : (Cluster.new p).start = p := rfl

@[simp] theorem new_end (p : Int) : (Cluster.new p).end_ = p := rfl

@[simp] theorem new_min_offset (p : Int) : (Cluster.new p).min_offset = 0 := rfl

@[simp] theorem new_max_offset (p : Int) : (Cluster.new p).max_offset = 0 := rfl

theorem shift_zero (c : Cluster) : c.shift 0 = c := by
  ext <;> simp

/-- Cluster::balance is exactly a shift by the negated truncated half-sum of
the offsets (the `if` in the source only skips a shift by zero). -/
theorem balance_eq_shift (c : Cluster) :
    c.balance = c.shift (-(Int.tdiv (c.min_offset + c.max_offset) 2)) := by
  rw [Cluster.balance]
  by_cases h : Int.tdiv (c.min_offset + c.max_offset) 2 = 0
  · simp [h, shift_zero]
  · simp [h]

theorem balance_span (c : Cluster) : c.balance.end_ - c.balance.start = c.end_ - c.start := by
  rw [balance_eq_shift]; simp

theorem limit_span (c : Cluster) (lo hi : Int) :
    (c.limit lo hi).end_ - (c.limit lo hi).start = c.end_ - c.start := by
  unfold Cluster.limit
  dsimp only []
  split_ifs <;> simp [Cluster.shift] <;> ring

theorem merge_span (a b : Cluster) (s : Int) :
    (Cluster.merge a b s).end_ - (Cluster.merge a b s).start =
      (a.end_ - a.start) + (b.end_ - b.start) + s := by
  rw [Cluster.merge]
  simp [balance_span]
  ring

theorem merge_start (a b : Cluster) (s : Int) :
    (Cluster.merge a b s).start =
      a.start + (b.start - a.end_ - s) -
        Int.tdiv (min (a.min_offset + (b.start - a.end_ - s)) b.min_offset +
          max (a.max_offset + (b.start - a.end_ - s)) b.max_offset) 2 := by
  rw [Cluster.merge, balance_eq_shift]
  simp
  ring

theorem limit_offsets_le (c : Cluster) (lo hi : Int) (h : c.min_offset ≤ c.max_offset) :
    (c.limit lo hi).min_offset ≤ (c.limit lo hi).max_offset := by
  unfold Cluster.limit
  dsimp only []
  split_ifs <;> first | exact h | (simp [Cluster.shift]; omega)

theorem balance_offsets_le (c : Cluster) (h : c.min_offset ≤ c.max_offset) :
    c.balance.min_offset ≤ c.balance.max_offset := by
  rw [balance_eq_shift]; simp; omega

theorem merge_offsets_le (a b : Cluster) (s : Int)
    (ha : a.min_offset ≤ a.max_offset) (hb : b.min_offset ≤ b.max_offset) :
    (Cluster.merge a b s).min_offset ≤ (Cluster.merge a b s).max_offset := by
  rw [Cluster.merge]
  apply balance_offsets_le
  simp
  omega

end Cluster

/-! Invariants of the merge loop and the sweep.  The stack keeps its most
recent cluster at the head, so for adjacent entries `b :: a :: _` the cluster
`a` was pushed earlier and sits below `b`: the separation invariant reads
`a.end_ + sep ≤ b.start`. -/

theorem mergeLoop_spec (sep : Int) (f : Cluster → Cluster) (P : Cluster → Prop)
    (Hf : ∀ a b : Cluster, P a → P b → P (f (Cluster.merge a b sep))) :
    ∀ (stack : List Cluster) (cluster : Cluster),
      List.Chain' (fun b a => a.end_ + sep ≤ b.start) stack →
      (∀ c ∈ stack, P c) → P cluster →
      List.Chain' (fun b a => a.end_ + sep ≤ b.start)
          ((mergeLoop sep f stack cluster).2 :: (mergeLoop sep f stack cluster).1) ∧
        ∀ c ∈ (mergeLoop sep f stack cluster).2 :: (mergeLoop sep f stack cluster).1, P c := by
  intro stack
  induction stack with
  | nil =>
    intro cluster _ _ hcur
    simp only [mergeLoop]
    refine ⟨List.chain'_singleton cluster, ?_⟩
    intro c hc
    rw [List.mem_singleton] at hc
    exact hc ▸ hcur
  | cons previous rest ih =>
    intro cluster hch hP hcur
    by_cases hcond : previous.end_ + sep > cluster.start
    · rw [mergeLoop, if_pos hcond]
      exact ih (f (Cluster.merge previous cluster sep)) hch.tail
        (fun c hc => hP c (List.mem_cons_of_mem previous hc))
        (Hf previous cluster (hP previous (List.mem_cons_self previous rest)) hcur)
    · rw [mergeLoop, if_neg hcond]
      dsimp only
      refine ⟨List.chain'_cons.mpr ⟨by omega, hch⟩, ?_⟩
      intro c hc
      rcases List.mem_cons.mp hc with h | h
      · exact h ▸ hcur
      · exact hP c h

theorem sweep_inv (sep : Int) (f : Cluster → Cluster) (P : Cluster → Prop)
    (Hf : ∀ a b : Cluster, P a → P b → P (f (Cluster.merge a b sep)))
    (Hnew : ∀ p : Int, P (f (Cluster.new p))) :
    ∀ (ps : List Int) (stack : List Cluster),
      List.Chain' (fun b a => a.end_ + sep ≤ b.start) stack →
      (∀ c ∈ stack, P c) →
      List.Chain' (fun b a => a.end_ + sep ≤ b.start) (sweep sep f stack ps) ∧
        ∀ c ∈ sweep sep f stack ps, P c := by
  intro ps
  induction ps with
  | nil => exact fun stack h1 h2 => ⟨h1, h2⟩
  | cons p rest ih =>
    intro stack h1 h2
    rw [sweep]
    have hm := mergeLoop_spec sep f P Hf stack (f (Cluster.new p)) h1 h2 (Hnew p)
    exact ih _ hm.1 hm.2

/-- Sum over the stack of each cluster's span plus one separation: `sep` times
the number of labels the stack holds, once every span is a multiple of `sep`. -/
def spanSum (sep : Int) (stack : List Cluster) : Int :=
  (stack.map fun c => c.end_ - c.start + sep).sum

theorem mergeLoop_spanSum (sep : Int) (f : Cluster → Cluster)
    (Hf : ∀ c : Cluster, (f c).end_ - (f c).start = c.end_ - c.start) :
    ∀ (stack : List Cluster) (cluster : Cluster),
      spanSum sep (mergeLoop sep f stack cluster).1 +
          ((mergeLoop sep f stack cluster).2.end_ - (mergeLoop sep f stack cluster).2.start + sep) =
        spanSum sep stack + (cluster.end_ - cluster.start + sep) := by
  intro stack
  induction stack with
  | nil => intro cluster; simp [mergeLoop]
  | cons previous rest ih =>
    intro cluster
    by_cases hcond : previous.end_ + sep > cluster.start
    · rw [mergeLoop, if_pos hcond]
      rw [ih (f (Cluster.merge previous cluster sep))]
      rw [Hf, Cluster.merge_span]
      simp [spanSum]
      ring
    · rw [mergeLoop, if_neg hcond]

theorem sweep_spanSum (sep : Int) (f : Cluster → Cluster)
    (Hf : ∀ c : Cluster, (f c).end_ - (f c).start = c.end_ - c.start) :
    ∀ (ps : List Int) (stack : List Cluster),
      spanSum sep (sweep sep f stack ps) = spanSum sep stack + sep * ps.length := by
  intro ps
  induction ps with
  | nil => intro stack; simp [sweep, spanSum]
  | cons p rest ih =>
    intro stack
    rw [sweep, ih]
    have hm := mergeLoop_spanSum sep f Hf stack (f (Cluster.new p))
    have hnew : (f (Cluster.new p)).end_ - (f (Cluster.new p)).start = 0 := by
      rw [Hf]; simp
    have hlen : sep * (((p :: rest).length : ℕ) : Int) = sep * ((rest.length : ℕ) : Int) + sep := by
      push_cast [List.length_cons]; ring
    simp only [spanSum, List.map_cons, List.sum_cons] at hm ⊢
    omega

/-! The flatten loop: `emitFrom sep e s` is the arithmetic progression from
`s` to `e` in steps of `sep` whenever `e - s` is a natural multiple of a
positive `sep`. -/

theorem emitFrom_head (sep : Int) (hsep : 0 < sep) (s e : Int) (hse : s ≤ e) :
    (emitFrom sep e s).head? = some s := by
  rw [emitFrom_step, if_pos ⟨hse, hsep⟩]
  rfl

theorem emitFrom_length (sep : Int) (hsep : 0 < sep) :
    ∀ (k : ℕ) (s e : Int), e - s = (k : Int) * sep → (emitFrom sep e s).length = k + 1 := by
  intro k
  induction k with
  | zero =>
    intro s e he
    have h1 : e = s := by push_cast at he; omega
    subst h1
    rw [emitFrom_step, if_pos ⟨le_refl e, hsep⟩, emitFrom_step,
      if_neg (by intro hcon; omega)]
    rfl
  | succ k ih =>
    intro s e he
    have hK : (0 : Int) ≤ (k : Int) * sep := mul_nonneg (Int.natCast_nonneg k) hsep.le
    have he' : e - s = (k : Int) * sep + sep := by push_cast at he; linarith
    rw [emitFrom_step, if_pos ⟨by linarith, hsep⟩]
    rw [List.length_cons, ih (s + sep) e (by linarith)]

theorem emitFrom_getLast (sep : Int) (hsep : 0 < sep) :
    ∀ (k : ℕ) (s e : Int), e - s = (k : Int) * sep →
      (emitFrom sep e s).getLast? = some e := by
  intro k
  induction k with
  | zero =>
    intro s e he
    have h1 : e = s := by push_cast at he; omega
    subst h1
    rw [emitFrom_step, if_pos ⟨le_refl e, hsep⟩, emitFrom_step,
      if_neg (by intro hcon; omega)]
    rfl
  | succ k ih =>
    intro s e he
    have hK : (0 : Int) ≤ (k : Int) * sep := mul_nonneg (Int.natCast_nonneg k) hsep.le
    have he' : e - s = (k : Int) * sep + sep := by push_cast at he; linarith
    have hk2 : e - (s + sep) = (k : Int) * sep := by linarith
    have hs2 : s + sep ≤ e := by linarith
    have hunf : emitFrom sep e (s + sep) = (s + sep) :: emitFrom sep e (s + sep + sep) := by
      rw [emitFrom_step, if_pos ⟨hs2, hsep⟩]
    rw [emitFrom_step, if_pos ⟨by linarith, hsep⟩, hunf, List.getLast?_cons_cons, ← hunf]
    exact ih (s + sep) e hk2

theorem emitFrom_chain (sep : Int) (hsep : 0 < sep) :
    ∀ (k : ℕ) (s e : Int), e - s = (k : Int) * sep →
      List.Chain' (fun x y : Int => x + sep ≤ y) (emitFrom sep e s) := by
  intro k
  induction k with
  | zero =>
    intro s e he
    have h1 : e = s := by push_cast at he; omega
    subst h1
    rw [emitFrom_step, if_pos ⟨le_refl e, hsep⟩, emitFrom_step,
      if_neg (by intro hcon; omega)]
    exact List.chain'_singleton e
  | succ k ih =>
    intro s e he
    have hK : (0 : Int) ≤ (k : Int) * sep := mul_nonneg (Int.natCast_nonneg k) hsep.le
    have he' : e - s = (k : Int) * sep + sep := by push_cast at he; linarith
    have hk2 : e - (s + sep) = (k : Int) * sep := by linarith
    rw [emitFrom_step, if_pos ⟨by linarith, hsep⟩]
    refine List.chain'_cons'.mpr ⟨?_, ih (s + sep) e hk2⟩
    intro y hy
    rw [emitFrom_head sep hsep (s + sep) e (by linarith)] at hy
    simp at hy
    omega

/-- Every emitted position lies between the cluster's start and end (no
multiple-of-separation hypothesis needed). -/
theorem emitFrom_mem (sep e : Int) : ∀ (s x : Int), x ∈ emitFrom sep e s → s ≤ x ∧ x ≤ e := by
  intro s
  induction s using emitFrom.induct sep e with
  | case1 s hcond ih =>
    intro x hx
    rw [emitFrom_step, if_pos hcond] at hx
    rcases List.mem_cons.mp hx with h | h
    · exact ⟨h ▸ le_refl x, h ▸ hcond.1⟩
    · have := ih x h
      exact ⟨by omega, this.2⟩
  | case2 s hcond =>
    intro x hx
    rw [emitFrom_step, if_neg hcond] at hx
    simp at hx

/-- A cluster span that is an exact non-negative multiple of the separation:
the invariant of spec section 3 (a cluster of k+1 members spans k * separation). -/
def GoodSpan (sep : Int) (c : Cluster) : Prop :=
  ∃ k : ℕ, c.end_ - c.start = (k : Int) * sep

theorem goodSpan_new (sep : Int) (p : Int) : GoodSpan sep (Cluster.new p) :=
  ⟨0, by simp⟩

theorem goodSpan_merge (sep : Int) (a b : Cluster)
    (ha : GoodSpan sep a) (hb : GoodSpan sep b) : GoodSpan sep (Cluster.merge a b sep) := by
  obtain ⟨ka, hka⟩ := ha
  obtain ⟨kb, hkb⟩ := hb
  exact ⟨ka + kb + 1, by rw [Cluster.merge_span, hka, hkb]; push_cast; ring⟩

theorem goodSpan_limit (sep lo hi : Int) (c : Cluster) (h : GoodSpan sep c) :
    GoodSpan sep (c.limit lo hi) := by
  obtain ⟨k, hk⟩ := h
  exact ⟨k, by rw [Cluster.limit_span, hk]⟩

theorem goodSpan_balance (sep : Int) (c : Cluster) (h : GoodSpan sep c) :
    GoodSpan sep c.balance := by
  obtain ⟨k, hk⟩ := h
  exact ⟨k, by rw [Cluster.balance_span, hk]⟩

theorem goodSpan_nonneg (sep : Int) (hsep : 0 < sep) (c : Cluster) (h : GoodSpan sep c) :
    c.start ≤ c.end_ := by
  obtain ⟨k, hk⟩ := h
  have : (0 : Int) ≤ (k : Int) * sep := mul_nonneg (Int.natCast_nonneg k) hsep.le
  omega

/-- Flattening a bottom-to-top list of separated clusters with good spans
yields a list in which consecutive positions differ by at least the
separation. -/
theorem flat_chain (sep : Int) (hsep : 0 < sep) :
    ∀ L : List Cluster, (∀ c ∈ L, GoodSpan sep c) →
      List.Chain' (fun a b : Cluster => a.end_ + sep ≤ b.start) L →
      List.Chain' (fun x y : Int => x + sep ≤ y)
        (L.flatMap fun c => emitFrom sep c.end_ c.start) := by
  intro L
  induction L with
  | nil => intro _ _; simp
  | cons c rest ih =>
    intro hgood hch
    rw [List.flatMap_cons]
    obtain ⟨k, hk⟩ := hgood c (List.mem_cons_self c rest)
    refine List.chain'_append.mpr ⟨emitFrom_chain sep hsep k c.start c.end_ hk,
      ih (fun d hd => hgood d (List.mem_cons_of_mem c hd)) hch.tail, ?_⟩
    intro x hx y hy
    rw [emitFrom_getLast sep hsep k c.start c.end_ hk] at hx
    simp at hx
    subst hx
    cases rest with
    | nil => simp at hy
    | cons c2 rest2 =>
      obtain ⟨k2, hk2⟩ := hgood c2 (List.mem_cons_of_mem c (List.mem_cons_self c2 rest2))
      have hs2 : c2.start ≤ c2.end_ := goodSpan_nonneg sep hsep c2 ⟨k2, hk2⟩
      rw [List.flatMap_cons] at hy
      have hne : emitFrom sep c2.end_ c2.start = c2.start :: emitFrom sep c2.end_ (c2.start + sep) := by
        rw [emitFrom_step, if_pos ⟨hs2, hsep⟩]
      rw [hne] at hy
      simp at hy
      have hrel : c.end_ + sep ≤ c2.start := List.chain'_cons.mp hch |>.1
      omega

/-- Flattening multiplies out to one emitted position per represented label:
`sep` times the output length equals the stack's span sum. -/
theorem flat_length (sep : Int) (hsep : 0 < sep) :
    ∀ L : List Cluster, (∀ c ∈ L, GoodSpan sep c) →
      sep * (((L.flatMap fun c => emitFrom sep c.end_ c.start).length : ℕ) : Int) =
        spanSum sep L := by
  intro L
  induction L with
  | nil => intro _; simp [spanSum]
  | cons c rest ih =>
    intro hgood
    obtain ⟨k, hk⟩ := hgood c (List.mem_cons_self c rest)
    have ihr := ih fun d hd => hgood d (List.mem_cons_of_mem c hd)
    rw [List.flatMap_cons, List.length_append,
      emitFrom_length sep hsep k c.start c.end_ hk]
    simp only [spanSum, List.map_cons, List.sum_cons] at ihr ⊢
    rw [hk]
    push_cast
    linarith

/-- Both entry points instantiate this: for a span-preserving post-processing
function `f`, the flattened sweep output has one position per input label and
consecutive positions at least `sep` apart. -/
theorem sweep_flatten_spec (sep : Int) (hsep : 0 < sep) (f : Cluster → Cluster)
    (Hfspan : ∀ c : Cluster, (f c).end_ - (f c).start = c.end_ - c.start)
    (ps : List Int) :
    (ClusterList.positions sep (sweep sep f [] ps)).length = ps.length ∧
      List.Chain' (fun x y : Int => x + sep ≤ y)
        (ClusterList.positions sep (sweep sep f [] ps)) := by
  have Hmerge : ∀ a b : Cluster, GoodSpan sep a → GoodSpan sep b →
      GoodSpan sep (f (Cluster.merge a b sep)) := by
    intro a b ha hb
    obtain ⟨k, hk⟩ := goodSpan_merge sep a b ha hb
    exact ⟨k, by rw [Hfspan]; exact hk⟩
  have Hnew : ∀ p : Int, GoodSpan sep (f (Cluster.new p)) := by
    intro p
    exact ⟨0, by rw [Hfspan]; simp⟩
  obtain ⟨hch, hgood⟩ :=
    sweep_inv sep f (GoodSpan sep) Hmerge Hnew ps [] List.chain'_nil (by simp)
  have hgoodR : ∀ c ∈ (sweep sep f [] ps).reverse, GoodSpan sep c :=
    fun c hc => hgood c (List.mem_reverse.mp hc)
  have hchR : List.Chain' (fun a b : Cluster => a.end_ + sep ≤ b.start)
      (sweep sep f [] ps).reverse := by
    rw [List.chain'_reverse]
    exact hch
  constructor
  · have hlen := flat_length sep hsep (sweep sep f [] ps).reverse hgoodR
    have hsum := sweep_spanSum sep f Hfspan ps []
    have hrev : spanSum sep (sweep sep f [] ps).reverse = spanSum sep (sweep sep f [] ps) := by
      rw [spanSum, spanSum, List.map_reverse, List.sum_reverse]
    have hempty : spanSum sep ([] : List Cluster) = 0 := by simp [spanSum]
    rw [hrev, hsum, hempty, zero_add] at hlen
    have hcancel := mul_left_cancel₀ (show sep ≠ 0 by omega) hlen
    rw [ClusterList.positions]
    exact_mod_cast hcancel
  · rw [ClusterList.positions]
    exact flat_chain sep hsep (sweep sep f [] ps).reverse hgoodR hchR

theorem place_spec (ps : List Int) (sep : Int) (hsep : 0 < sep) :
    (place ps sep).length = ps.length ∧
      List.Chain' (fun x y : Int => x + sep ≤ y) (place ps sep) :=
  sweep_flatten_spec sep hsep id (fun _ => rfl) ps

theorem place_with_limits_spec (ps : List Int) (sep lo hi : Int) (hsep : 0 < sep) :
    (place_with_limits ps sep lo hi).length = ps.length ∧
      List.Chain' (fun x y : Int => x + sep ≤ y) (place_with_limits ps sep lo hi) :=
  sweep_flatten_spec sep hsep (fun c => c.limit lo hi) (fun c => Cluster.limit_span c lo hi) ps

/-- Truncating division by two leaves a remainder between -1 and 1. -/
theorem sub_two_tdiv_two (n : Int) : -1 ≤ n - 2 * Int.tdiv n 2 ∧ n - 2 * Int.tdiv n 2 ≤ 1 := by
  rcases le_total 0 n with h | h
  · have h1 := Int.tdiv_add_tmod n 2
    have h2 := Int.tmod_nonneg 2 h
    have h3 := Int.tmod_lt_of_pos n (show (0 : Int) < 2 by decide)
    omega
  · have h1 := Int.tdiv_add_tmod (-n) 2
    have h2 := Int.tmod_nonneg 2 (show (0 : Int) ≤ -n by omega)
    have h3 := Int.tmod_lt_of_pos (-n) (show (0 : Int) < 2 by decide)
    have h4 : Int.tdiv (-n) 2 = -Int.tdiv n 2 := Int.neg_tdiv n 2
    omega

/-- Two times the larger absolute value is the sum of the absolute difference
and the absolute sum. -/
theorem two_mul_max_abs (x y : Int) : 2 * max |x| |y| = |x - y| + |x + y| := by
  rcases max_cases |x| |y| with ⟨hmax, hle⟩ | ⟨hmax, hlt⟩ <;>
    rcases abs_cases x with ⟨hx, hx0⟩ | ⟨hx, hx0⟩ <;>
    rcases abs_cases y with ⟨hy, hy0⟩ | ⟨hy, hy0⟩ <;>
    rcases abs_cases (x - y) with ⟨hxy, hxy0⟩ | ⟨hxy, hxy0⟩ <;>
    rcases abs_cases (x + y) with ⟨hxy2, hxy20⟩ | ⟨hxy2, hxy20⟩ <;>
    omega

/-- Shifting by the negated near-half of the offset sum minimises the larger
absolute offset over all integer shifts. -/
theorem balance_minimizes (a b q t : Int) (h1 : -1 ≤ a + b - 2 * q) (h2 : a + b - 2 * q ≤ 1) :
    max |a + -q| |b + -q| ≤ max |a + t| |b + t| := by
  have e1 := two_mul_max_abs (a + -q) (b + -q)
  have e2 := two_mul_max_abs (a + t) (b + t)
  rw [show a + -q - (b + -q) = a - b from by ring,
    show a + -q + (b + -q) = a + b - 2 * q from by ring] at e1
  rw [show a + t - (b + t) = a - b from by ring,
    show a + t + (b + t) = a + b + 2 * t from by ring] at e2
  have key : |a + b - 2 * q| ≤ |a + b + 2 * t| := by
    rcases abs_cases (a + b - 2 * q) with ⟨f1, g1⟩ | ⟨f1, g1⟩ <;>
      rcases abs_cases (a + b + 2 * t) with ⟨f2, g2⟩ | ⟨f2, g2⟩ <;>
      omega
  omega

/-- What Cluster::limit guarantees about its result when the limits are
consistent: the end never exceeds the upper limit; when the span fits the
window the start also respects the lower limit; and when the span overflows
the window the cluster ends exactly at the upper limit with its start below
the lower one. -/
def LimitPost (lo hi : Int) (c : Cluster) : Prop :=
  c.end_ ≤ hi ∧ (c.end_ - c.start ≤ hi - lo → lo ≤ c.start) ∧
    (hi - lo < c.end_ - c.start → c.end_ = hi ∧ c.start < lo)

theorem limit_post (lo hi : Int) (hlohi : lo ≤ hi) (c : Cluster) :
    LimitPost lo hi (c.limit lo hi) := by
  unfold LimitPost Cluster.limit
  dsimp only []
  by_cases h1 : c.start < lo
  · rw [if_pos h1]
    by_cases h2 : (c.shift (lo - c.start)).end_ > hi
    · rw [if_pos h2]
      simp only [Cluster.shift_start, Cluster.shift_end] at h2 ⊢
      omega
    · rw [if_neg h2]
      simp only [Cluster.shift_start, Cluster.shift_end] at h2 ⊢
      omega
  · rw [if_neg h1]
    by_cases h2 : c.end_ > hi
    · rw [if_pos h2]
      simp only [Cluster.shift_start, Cluster.shift_end]
      omega
    · rw [if_neg h2]
      omega

theorem limitStack_post (ps : List Int) (sep lo hi : Int) (hlohi : lo ≤ hi) :
    ∀ c ∈ limitStack ps sep lo hi, LimitPost lo hi c := by
  have h := sweep_inv sep (fun c => c.limit lo hi) (LimitPost lo hi)
    (fun a b _ _ => limit_post lo hi hlohi (Cluster.merge a b sep))
    (fun p => limit_post lo hi hlohi (Cluster.new p))
    ps [] List.chain'_nil (by simp)
  exact fun c hc => h.2 c hc

/-- Emitting the flatten loop on a single-position cluster yields exactly that
position. -/
theorem emitFrom_singleton (sep : Int) (hsep : 0 < sep) (p : Int) : emitFrom sep p p = [p] := by
  rw [emitFrom_step, if_pos ⟨le_refl p, hsep⟩, emitFrom_step, if_neg (by intro hcon; omega)]

theorem flat_singletons (sep : Int) (hsep : 0 < sep) :
    ∀ ps : List Int,
      ((ps.map Cluster.new).flatMap fun c => emitFrom sep c.end_ c.start) = ps := by
  intro ps
  induction ps with
  | nil => simp
  | cons p rest ih =>
    rw [List.map_cons, List.flatMap_cons, ih]
    simp [emitFrom_singleton sep hsep]

/-- On input whose consecutive positions already differ by at least the
separation, the sweep never merges: the stack is just the reversed list of
singleton clusters. -/
theorem sweep_separated (sep : Int) (hsep : 0 < sep) :
    ∀ (ps : List Int) (stack : List Cluster),
      List.Chain' (fun a b : Int => a + sep ≤ b) ps →
      (∀ c, stack.head? = some c → ∀ q, ps.head? = some q → c.end_ + sep ≤ q) →
      sweep sep id stack ps = (ps.map Cluster.new).reverse ++ stack := by
  intro ps
  induction ps with
  | nil => intro stack _ _; simp [sweep]
  | cons p rest ih =>
    intro stack hch hhead
    rw [sweep]
    simp only [id_eq]
    have hml : mergeLoop sep id stack (Cluster.new p) = (stack, Cluster.new p) := by
      cases stack with
      | nil => rw [mergeLoop]
      | cons c rest2 =>
        have hc : c.end_ + sep ≤ p := hhead c rfl p rfl
        rw [mergeLoop, if_neg (by simp [Cluster.new]; omega)]
    rw [hml]
    have := ih (Cluster.new p :: stack) hch.tail ?_
    · rw [this, List.map_cons, List.reverse_cons, List.append_assoc]
      rfl
    · intro c hc q hq
      simp at hc
      subst hc
      cases rest with
      | nil => simp at hq
      | cons r rest2 =>
        simp at hq
        subst hq
        have := List.chain'_cons.mp hch |>.1
        simp [Cluster.new]
        omega

/-- Spec section 3 cluster invariant: the span is an exact non-negative
multiple of the separation and the offset range is ordered. -/
def SpanOffsets (sep : Int) (c : Cluster) : Prop :=
  GoodSpan sep c ∧ c.min_offset ≤ c.max_offset

/-! The ten claims. -/

/-- C1: for every non-decreasing list of input positions and every
separation > 0 (and min ≤ max for the bounded variant), any two consecutive
elements of the output of place and of place_with_limits differ by at least
the separation. -/
theorem C1_consecutive_separation (ps : List Int) (sep lo hi : Int)
    (hsort : List.Chain' (fun a b : Int => a ≤ b) ps) (hsep : 0 < sep) (hlohi : lo ≤ hi) :
    (∀ i (h : i + 1 < (place ps sep).length),
        sep ≤ (place ps sep).get ⟨i + 1, h⟩ -
          (place ps sep).get ⟨i, Nat.lt_of_succ_lt h⟩) ∧
      ∀ i (h : i + 1 < (place_with_limits ps sep lo hi).length),
        sep ≤ (place_with_limits ps sep lo hi).get ⟨i + 1, h⟩ -
          (place_with_limits ps sep lo hi).get ⟨i, Nat.lt_of_succ_lt h⟩ := by
  constructor
  · have hch := (place_spec ps sep hsep).2
    rw [List.chain'_iff_get] at hch
    intro i h
    have h2 : (place ps sep).get ⟨i, Nat.lt_of_succ_lt h⟩ + sep ≤
        (place ps sep).get ⟨i + 1, h⟩ := hch i (by omega)
    omega
  · have hch := (place_with_limits_spec ps sep lo hi hsep).2
    rw [List.chain'_iff_get] at hch
    intro i h
    have h2 : (place_with_limits ps sep lo hi).get ⟨i, Nat.lt_of_succ_lt h⟩ + sep ≤
        (place_with_limits ps sep lo hi).get ⟨i + 1, h⟩ := hch i (by omega)
    omega

theorem C1_witness :
    List.Chain' (fun a b : Int => a ≤ b) [0, 0] ∧ (0 : Int) < 10 ∧ (0 : Int) ≤ 7 ∧
      ((∀ i (h : i + 1 < (place [0, 0] 10).length),
          (10 : Int) ≤ (place [0, 0] 10).get ⟨i + 1, h⟩ -
            (place [0, 0] 10).get ⟨i, Nat.lt_of_succ_lt h⟩) ∧
        ∀ i (h : i + 1 < (place_with_limits [0, 0] 10 0 7).length),
          (10 : Int) ≤ (place_with_limits [0, 0] 10 0 7).get ⟨i + 1, h⟩ -
            (place_with_limits [0, 0] 10 0 7).get ⟨i, Nat.lt_of_succ_lt h⟩) :=
  ⟨by simp, by decide, by decide,
    C1_consecutive_separation [0, 0] 10 0 7 (by simp) (by decide) (by decide)⟩

/-- C2: for every non-decreasing list of input positions and every
separation > 0, place and place_with_limits return a list of exactly the same
length as the input, and the output list is non-decreasing (index-for-index
correspondence follows: the i-th output is the permitted position of the i-th
label). -/
theorem C2_length_and_monotone (ps : List Int) (sep : Int)
    (hsort : List.Chain' (fun a b : Int => a ≤ b) ps) (hsep : 0 < sep) :
    ((place ps sep).length = ps.length ∧
        List.Chain' (fun a b : Int => a ≤ b) (place ps sep)) ∧
      ∀ lo hi : Int, (place_with_limits ps sep lo hi).length = ps.length ∧
        List.Chain' (fun a b : Int => a ≤ b) (place_with_limits ps sep lo hi) := by
  constructor
  · obtain ⟨h1, h2⟩ := place_spec ps sep hsep
    exact ⟨h1, h2.imp fun hab => by omega⟩
  · intro lo hi
    obtain ⟨h1, h2⟩ := place_with_limits_spec ps sep lo hi hsep
    exact ⟨h1, h2.imp fun hab => by omega⟩

theorem C2_witness :
    List.Chain' (fun a b : Int => a ≤ b) [0, 0] ∧ (0 : Int) < 10 ∧
      (((place [0, 0] 10).length = ([0, 0] : List Int).length ∧
          List.Chain' (fun a b : Int => a ≤ b) (place [0, 0] 10)) ∧
        ∀ lo hi : Int, (place_with_limits [0, 0] 10 lo hi).length = ([0, 0] : List Int).length ∧
          List.Chain' (fun a b : Int => a ≤ b) (place_with_limits [0, 0] 10 lo hi)) :=
  ⟨by simp, by decide, C2_length_and_monotone [0, 0] 10 (by simp) (by decide)⟩

/-- C3: for place_with_limits with sorted input, separation > 0 and min ≤ max,
every output value is at most max; a cluster of the final stack whose span
fits within max - min keeps all its emitted positions inside the window,
while an overflowing cluster ends exactly at max with its start below min
(the upper bound always wins); in particular
place_with_limits [0, 0, 0] 10 0 0 = [-20, -10, 0]. -/
theorem C3_limit_bounds (ps : List Int) (sep lo hi : Int)
    (hsort : List.Chain' (fun a b : Int => a ≤ b) ps) (hsep : 0 < sep) (hlohi : lo ≤ hi) :
    (∀ x ∈ place_with_limits ps sep lo hi, x ≤ hi) ∧
      (∀ c ∈ limitStack ps sep lo hi,
        (c.end_ - c.start ≤ hi - lo → ∀ x ∈ emitFrom sep c.end_ c.start, lo ≤ x ∧ x ≤ hi) ∧
          (hi - lo < c.end_ - c.start → c.end_ = hi ∧ c.start < lo)) ∧
      place_with_limits [0, 0, 0] 10 0 0 = [-20, -10, 0] := by
  have hpost := limitStack_post ps sep lo hi hlohi
  refine ⟨?_, ?_, ?_⟩
  · intro x hx
    rw [place_with_limits, ClusterList.positions, List.mem_flatMap] at hx
    obtain ⟨c, hc, hxc⟩ := hx
    have hcs := hpost c (List.mem_reverse.mp hc)
    exact le_trans (emitFrom_mem sep c.end_ c.start x hxc).2 hcs.1
  · intro c hc
    have hcs := hpost c hc
    refine ⟨?_, hcs.2.2⟩
    intro hspan x hx
    have hb := emitFrom_mem sep c.end_ c.start x hx
    exact ⟨le_trans (hcs.2.1 hspan) hb.1, le_trans hb.2 hcs.1⟩
  · have h : limitStack [0, 0, 0] 10 0 0 = [⟨-20, 0, -20, 0⟩] := by decide
    rw [place_with_limits, h]
    simp [ClusterList.positions]
    simp +decide [emitFrom_step]

theorem C3_witness :
    List.Chain' (fun a b : Int => a ≤ b) [0, 0, 0] ∧ (0 : Int) < 10 ∧ (0 : Int) ≤ 0 ∧
      ((∀ x ∈ place_with_limits [0, 0, 0] 10 0 0, x ≤ 0) ∧
        (∀ c ∈ limitStack [0, 0, 0] 10 0 0,
          (c.end_ - c.start ≤ 0 - 0 → ∀ x ∈ emitFrom 10 c.end_ c.start, 0 ≤ x ∧ x ≤ 0) ∧
            (0 - 0 < c.end_ - c.start → c.end_ = 0 ∧ c.start < 0)) ∧
        place_with_limits [0, 0, 0] 10 0 0 = [-20, -10, 0]) :=
  ⟨by simp, by decide, by decide,
    C3_limit_bounds [0, 0, 0] 10 0 0 (by simp) (by decide) (by decide)⟩

/-- C4: balance shifts all four cluster fields by the negation of the
truncated (toward zero) half of min_offset + max_offset; the balanced cluster
has offset sum in -1, 0 or 1, which minimises the maximum absolute offset
over all integer shifts of the cluster. -/
theorem C4_balance_properties (c : Cluster) :
    c.balance = c.shift (-(Int.tdiv (c.min_offset + c.max_offset) 2)) ∧
      (c.balance.min_offset + c.balance.max_offset = -1 ∨
        c.balance.min_offset + c.balance.max_offset = 0 ∨
        c.balance.min_offset + c.balance.max_offset = 1) ∧
      ∀ t : Int,
        max |c.balance.min_offset| |c.balance.max_offset| ≤
          max |(c.shift t).min_offset| |(c.shift t).max_offset| := by
  have hq := sub_two_tdiv_two (c.min_offset + c.max_offset)
  refine ⟨Cluster.balance_eq_shift c, ?_, ?_⟩
  · rw [Cluster.balance_eq_shift]
    simp only [Cluster.shift_min_offset, Cluster.shift_max_offset]
    omega
  · intro t
    rw [Cluster.balance_eq_shift]
    simp only [Cluster.shift_min_offset, Cluster.shift_max_offset]
    exact balance_minimizes c.min_offset c.max_offset
      (Int.tdiv (c.min_offset + c.max_offset) 2) t (by omega) (by omega)

/-- C5: the concrete reference scenarios of spec section 8. -/
theorem C5_reference_scenarios :
    place [0, 0] 10 = [-5, 5] ∧ place [0, 0, 0] 10 = [-10, 0, 10] ∧
      place [0, 10, 20, 30, 31] 10 = [-5, 5, 15, 25, 35] ∧
      place [0, 0, 0, 0] 5 = [-8, -3, 2, 7] := by
  refine ⟨?_, ?_, ?_, ?_⟩
  · have h : placeStack [0, 0] 10 = [⟨-5, 5, -5, 5⟩] := by decide
    rw [place, h]
    simp [ClusterList.positions]
    simp +decide [emitFrom_step]
  · have h : placeStack [0, 0, 0] 10 = [⟨-10, 10, -10, 10⟩] := by decide
    rw [place, h]
    simp [ClusterList.positions]
    simp +decide [emitFrom_step]
  · have h : placeStack [0, 10, 20, 30, 31] 10 = [⟨-5, 35, -5, 4⟩] := by decide
    rw [place, h]
    simp [ClusterList.positions]
    simp +decide [emitFrom_step]
  · have h : placeStack [0, 0, 0, 0] 5 = [⟨-8, 7, -8, 7⟩] := by decide
    rw [place, h]
    simp [ClusterList.positions]
    simp +decide [emitFrom_step]

/-- C6: during every sweep of place and place_with_limits, after each push the
stack satisfies the separation invariant: for adjacent clusters the earlier
(deeper, later in the embedded list, whose head is the top) cluster A and the
later cluster B satisfy A.end_ + separation ≤ B.start, so stacked clusters
never need merging with each other and only the top is ever inspected.  The
stack after processing the first n inputs is the sweep of `ps.take n`. -/
theorem C6_stack_separation_invariant (ps : List Int) (sep lo hi : Int)
    (hsort : List.Chain' (fun a b : Int => a ≤ b) ps) (hsep : 0 < sep) (hlohi : lo ≤ hi) :
    (∀ n : ℕ, List.Chain' (fun b a : Cluster => a.end_ + sep ≤ b.start)
        (placeStack (ps.take n) sep)) ∧
      ∀ n : ℕ, List.Chain' (fun b a : Cluster => a.end_ + sep ≤ b.start)
        (limitStack (ps.take n) sep lo hi) := by
  constructor
  · intro n
    exact (sweep_inv sep id (fun _ => True) (fun _ _ _ _ => trivial) (fun _ => trivial)
      (ps.take n) [] List.chain'_nil (by simp)).1
  · intro n
    exact (sweep_inv sep (fun c => c.limit lo hi) (fun _ => True) (fun _ _ _ _ => trivial)
      (fun _ => trivial) (ps.take n) [] List.chain'_nil (by simp)).1

theorem C6_witness :
    List.Chain' (fun a b : Int => a ≤ b) [0, 0] ∧ (0 : Int) < 10 ∧ (0 : Int) ≤ 5 ∧
      ((∀ n : ℕ, List.Chain' (fun b a : Cluster => a.end_ + 10 ≤ b.start)
          (placeStack (([0, 0] : List Int).take n) 10)) ∧
        ∀ n : ℕ, List.Chain' (fun b a : Cluster => a.end_ + 10 ≤ b.start)
          (limitStack (([0, 0] : List Int).take n) 10 0 5)) :=
  ⟨by simp, by decide, by decide,
    C6_stack_separation_invariant [0, 0] 10 0 5 (by simp) (by decide) (by decide)⟩

/-- C7: with separation > 0, every cluster produced during a sweep satisfies
the invariant that its span is an exact non-negative multiple of the
separation and min_offset ≤ max_offset: a fresh single-member cluster has both
offsets zero and satisfies it, the invariant is closed under merge, balance
and limit, and every cluster of every intermediate stack of both entry points
satisfies it. -/
theorem C7_cluster_invariants (sep lo hi : Int) (hsep : 0 < sep) :
    (∀ p : Int, (Cluster.new p).min_offset = 0 ∧ (Cluster.new p).max_offset = 0 ∧
        SpanOffsets sep (Cluster.new p)) ∧
      (∀ a b : Cluster, SpanOffsets sep a → SpanOffsets sep b →
        SpanOffsets sep (Cluster.merge a b sep)) ∧
      (∀ c : Cluster, SpanOffsets sep c → SpanOffsets sep c.balance) ∧
      (∀ c : Cluster, SpanOffsets sep c → SpanOffsets sep (c.limit lo hi)) ∧
      ∀ (ps : List Int) (n : ℕ),
        (∀ c ∈ placeStack (ps.take n) sep, SpanOffsets sep c) ∧
          ∀ c ∈ limitStack (ps.take n) sep lo hi, SpanOffsets sep c := by
  refine ⟨?_, ?_, ?_, ?_, ?_⟩
  · intro p
    exact ⟨rfl, rfl, goodSpan_new sep p, le_refl 0⟩
  · intro a b ha hb
    exact ⟨goodSpan_merge sep a b ha.1 hb.1, Cluster.merge_offsets_le a b sep ha.2 hb.2⟩
  · intro c hc
    exact ⟨goodSpan_balance sep c hc.1, Cluster.balance_offsets_le c hc.2⟩
  · intro c hc
    exact ⟨goodSpan_limit sep lo hi c hc.1, Cluster.limit_offsets_le c lo hi hc.2⟩
  · intro ps n
    constructor
    · exact (sweep_inv sep id (SpanOffsets sep)
        (fun a b ha hb =>
          ⟨goodSpan_merge sep a b ha.1 hb.1, Cluster.merge_offsets_le a b sep ha.2 hb.2⟩)
        (fun p => ⟨goodSpan_new sep p, le_refl 0⟩)
        (ps.take n) [] List.chain'_nil (by simp)).2
    · exact (sweep_inv sep (fun c => c.limit lo hi) (SpanOffsets sep)
        (fun a b ha hb =>
          ⟨goodSpan_limit sep lo hi _ (goodSpan_merge sep a b ha.1 hb.1),
            Cluster.limit_offsets_le _ lo hi (Cluster.merge_offsets_le a b sep ha.2 hb.2)⟩)
        (fun p =>
          ⟨goodSpan_limit sep lo hi _ (goodSpan_new sep p),
            Cluster.limit_offsets_le _ lo hi (le_refl 0)⟩)
        (ps.take n) [] List.chain'_nil (by simp)).2

theorem C7_witness :
    (0 : Int) < 10 ∧
      ((∀ p : Int, (Cluster.new p).min_offset = 0 ∧ (Cluster.new p).max_offset = 0 ∧
          SpanOffsets 10 (Cluster.new p)) ∧
        (∀ a b : Cluster, SpanOffsets 10 a → SpanOffsets 10 b →
          SpanOffsets 10 (Cluster.merge a b 10)) ∧
        (∀ c : Cluster, SpanOffsets 10 c → SpanOffsets 10 c.balance) ∧
        (∀ c : Cluster, SpanOffsets 10 c → SpanOffsets 10 (c.limit 0 5)) ∧
        ∀ (ps : List Int) (n : ℕ),
          (∀ c ∈ placeStack (ps.take n) 10, SpanOffsets 10 c) ∧
            ∀ c ∈ limitStack (ps.take n) 10 0 5, SpanOffsets 10 c) :=
  ⟨by decide, C7_cluster_invariants 10 0 5 (by decide)⟩

/-- C8: place is the identity on already-separated input: when consecutive
input positions differ by at least the separation (positive), the output
equals the input; in particular place [0, 10] 10 = [0, 10]. -/
theorem C8_identity_on_separated (ps : List Int) (sep : Int) (hsep : 0 < sep)
    (hsort : List.Chain' (fun a b : Int => a + sep ≤ b) ps) :
    place ps sep = ps ∧ place [0, 10] 10 = [0, 10] := by
  constructor
  · rw [place, placeStack, sweep_separated sep hsep ps [] hsort (by intro c hc; simp at hc)]
    rw [List.append_nil, ClusterList.positions, List.reverse_reverse]
    exact flat_singletons sep hsep ps
  · have h : placeStack [0, 10] 10 = [⟨10, 10, 0, 0⟩, ⟨0, 0, 0, 0⟩] := by decide
    rw [place, h]
    simp [ClusterList.positions]
    simp +decide [emitFrom_step]

theorem C8_witness :
    (0 : Int) < 10 ∧ List.Chain' (fun a b : Int => a + 10 ≤ b) [0, 10] ∧
      (place [0, 10] 10 = [0, 10] ∧ place [0, 10] 10 = [0, 10]) :=
  ⟨by decide, by simp [List.chain'_cons], C8_identity_on_separated [0, 10] 10 (by decide)
    (by simp [List.chain'_cons])⟩

/-- C9 counterexample: for separation 0 the claim fails: the source flatten
loop never advances past a single-position cluster, so place [0] 0 does not
return [0] (the embedding returns [] where the source loop never returns). -/
theorem C9_single_label_counterexample : (place [0] 0 = [0]) = False := by
  apply eq_false
  intro hcon
  have h : placeStack [0] 0 = [⟨0, 0, 0, 0⟩] := by decide
  rw [place, h] at hcon
  simp [ClusterList.positions] at hcon
  rw [emitFrom_step, if_neg (by intro hc; exact absurd hc.2 (by decide))] at hcon
  simp at hcon

/-- C9 (amended): for every single-element input [p], every separation > 0
and every min ≤ max, place_with_limits [p] returns the clamp of p to
[min, max], and place [p] returns [p]. -/
theorem C9_single_label (p sep lo hi : Int) (hsep : 0 < sep) (hlohi : lo ≤ hi) :
    place_with_limits [p] sep lo hi = [max lo (min p hi)] ∧ place [p] sep = [p] := by
  constructor
  · have hls : limitStack [p] sep lo hi = [(Cluster.new p).limit lo hi] := rfl
    have hv : (Cluster.new p).limit lo hi =
        ⟨max lo (min p hi), max lo (min p hi), max lo (min p hi) - p, max lo (min p hi) - p⟩ := by
      unfold Cluster.limit Cluster.new
      dsimp only []
      split_ifs <;> ext <;> simp [Cluster.shift] at * <;> omega
    rw [place_with_limits, hls, hv, ClusterList.positions]
    simp
    exact emitFrom_singleton sep hsep (max lo (min p hi))
  · have hps : placeStack [p] sep = [Cluster.new p] := rfl
    rw [place, hps, ClusterList.positions]
    simp
    exact emitFrom_singleton sep hsep p

theorem C9_single_label_witness :
    (0 : Int) < 1 ∧ (0 : Int) ≤ 3 ∧
      (place_with_limits [5] 1 0 3 = [max 0 (min 5 3)] ∧ place [5] 1 = [5]) :=
  ⟨by decide, by decide, C9_single_label 5 1 0 3 (by decide) (by decide)⟩

/-- C10: on the empty input both entry points return the empty list, for
every separation and limits. -/
theorem C10_empty_input (sep lo hi : Int) :
    place [] sep = [] ∧ place_with_limits [] sep lo hi = [] :=
  ⟨rfl, rfl⟩
